import Mathlib

/-!
A shallow embedding of the x86 virtual-memory-manager sources
`cont_frame_pool.C` (contiguous physical-frame allocator with a packed
2-bit-per-frame state bitmap) and `vm_pool.C` (virtual-memory region
allocator), together with theorems settling the specification claims.

Machine integers (`unsigned long` / `unsigned int` on IA-32) are modelled
as `Nat`; the mutable free-frame counter and the region counter, which the
source decrements and increments as 32-bit unsigned values, use explicit
mod-2^32 arithmetic (`inc32` / `dec32`).  Fatal `assert` failures are
modelled by `Option` results.  The bitmap is a byte store `Nat → Nat`,
and `get_state` / `set_state` reproduce the source's mask arithmetic
bit for bit (`x &= ~mask` is `Nat.ldiff x mask`).
-/

/-- Modelled from the spec: `cont_frame_pool.H` / `machine.H` are not in the
sources; frames and pages are the standard 4 KB of this kernel. -/
def FRAME_SIZE : Nat := 4096

/-- Modelled from the spec: `machine.H` is not in the sources; a page has the
same size as a frame. -/
def PAGE_SIZE : Nat := 4096

/-- Modulus of a 32-bit `unsigned long` / `unsigned int` on IA-32. -/
def M32 : Nat := 4294967296

/-- 32-bit unsigned increment (`x++`). -/
def inc32 (x : Nat) : Nat := (x + 1) % M32

/-- 32-bit unsigned decrement (`x--`). -/
def dec32 (x : Nat) : Nat := (x + (M32 - 1)) % M32

/-- `k`-fold 32-bit increment, as produced by a loop of `x++`. -/
def inc32Iter (x : Nat) : Nat → Nat
  | 0 => x
  | k + 1 => inc32 (inc32Iter x k)

/-- `k`-fold 32-bit decrement, as produced by a loop of `x--`. -/
def dec32Iter (x : Nat) : Nat → Nat
  | 0 => x
  | k + 1 => dec32 (dec32Iter x k)

/-- The three legal frame states of `ContFramePool::FrameState`. -/
inductive FrameState where
  | Free : FrameState
  | Used : FrameState
  | HoS : FrameState
deriving DecidableEq

/-- The management bitmap: a byte store, indexed as `bitmap[i]` in the source. -/
def Bitmap : Type := Nat → Nat

/-- `ContFramePool::get_state`: read the 2-bit state of frame `fno` out of the
packed byte `bitmap[fno / 4]`. -/
def get_state (bm : Bitmap) (fno : Nat) : FrameState :=
  let bitmap_index := fno / 4
  let position := 2 * (fno % 4)
  let mask := (1 <<< position) ||| (1 <<< (position + 1))
  let result := bm bitmap_index &&& mask
  if result = 0 then FrameState.Free
  else if result = mask then FrameState.Used
  else FrameState.HoS

/-- `ContFramePool::set_state`: write the 2-bit state of frame `fno` into the
packed byte `bitmap[fno / 4]`.  `Used` is `|= mask`, `Free` is `&= ~mask`
(bitwise difference), `HoS` clears the pair and then sets the high bit. -/
def set_state (bm : Bitmap) (fno : Nat) (s : FrameState) : Bitmap :=
  let bitmap_index := fno / 4
  let position := 2 * (fno % 4)
  let mask := (1 <<< position) ||| (1 <<< (position + 1))
  fun j =>
    if j = bitmap_index then
      match s with
      | FrameState.Used => bm j ||| mask
      | FrameState.Free => Nat.ldiff (bm j) mask
      | FrameState.HoS => Nat.ldiff (bm j) mask ||| (1 <<< (position + 1))
    else bm j

theorem lor_land_self (a m : Nat) : (a ||| m) &&& m = m := by
  apply Nat.eq_of_testBit_eq
  intro i
  simp [Nat.testBit_land, Nat.testBit_lor]
  cases a.testBit i <;> cases m.testBit i <;> simp

theorem ldiff_land_self (a m : Nat) : Nat.ldiff a m &&& m = 0 := by
  apply Nat.eq_of_testBit_eq
  intro i
  simp [Nat.testBit_land, Nat.testBit_ldiff]

theorem ldiff_lor_land (a m h : Nat) : (Nat.ldiff a m ||| h) &&& m = h &&& m := by
  apply Nat.eq_of_testBit_eq
  intro i
  simp [Nat.testBit_land, Nat.testBit_lor, Nat.testBit_ldiff]
  cases a.testBit i <;> cases m.testBit i <;> cases h.testBit i <;> simp

theorem testBit_eq_false_of_land_eq_zero {m m' : Nat} (h : m &&& m' = 0) (i : Nat) :
    m.testBit i = false ∨ m'.testBit i = false := by
  have h2 := congrArg (fun x => Nat.testBit x i) h
  simp [Nat.testBit_land] at h2
  by_cases hm : m.testBit i
  · exact Or.inr (h2 hm)
  · exact Or.inl (by simpa using hm)

theorem lor_land_of_disjoint {m m' : Nat} (a : Nat) (h : m &&& m' = 0) :
    (a ||| m) &&& m' = a &&& m' := by
  apply Nat.eq_of_testBit_eq
  intro i
  simp only [Nat.testBit_land, Nat.testBit_lor]
  rcases testBit_eq_false_of_land_eq_zero h i with h1 | h1 <;>
    cases ha : a.testBit i <;> simp [h1, ha]

theorem ldiff_land_of_disjoint {m m' : Nat} (a : Nat) (h : m &&& m' = 0) :
    Nat.ldiff a m &&& m' = a &&& m' := by
  apply Nat.eq_of_testBit_eq
  intro i
  simp only [Nat.testBit_land, Nat.testBit_ldiff]
  rcases testBit_eq_false_of_land_eq_zero h i with h1 | h1 <;>
    cases ha : a.testBit i <;> simp [h1, ha]

theorem ldiff_eq_self_of_land_eq_zero {a m : Nat} (h : a &&& m = 0) :
    Nat.ldiff a m = a := by
  apply Nat.eq_of_testBit_eq
  intro i
  simp [Nat.testBit_ldiff]
  rcases testBit_eq_false_of_land_eq_zero h i with h1 | h1 <;> simp [h1]

theorem testBit_one_shiftLeft (p i : Nat) : (1 <<< p).testBit i = decide (p = i) := by
  rw [Nat.one_shiftLeft]
  exact Nat.testBit_two_pow

theorem frame_mask_testBit (p i : Nat) :
    ((1 <<< p) ||| (1 <<< (p + 1))).testBit i = (decide (p = i) || decide (p + 1 = i)) := by
  simp only [Nat.testBit_lor, testBit_one_shiftLeft]

theorem frame_mask_ne_zero (p : Nat) : ((1 <<< p) ||| (1 <<< (p + 1))) ≠ 0 := by
  intro h
  have h2 := congrArg (fun x => Nat.testBit x p) h
  simp [frame_mask_testBit] at h2

theorem hi_land_frame_mask (p : Nat) :
    (1 <<< (p + 1)) &&& ((1 <<< p) ||| (1 <<< (p + 1))) = 1 <<< (p + 1) := by
  apply Nat.eq_of_testBit_eq
  intro i
  simp only [Nat.testBit_land, frame_mask_testBit, testBit_one_shiftLeft]
  by_cases h : p + 1 = i <;> simp [h]

theorem hi_ne_frame_mask (p : Nat) : (1 <<< (p + 1)) ≠ ((1 <<< p) ||| (1 <<< (p + 1))) := by
  intro h
  have h2 := congrArg (fun x => Nat.testBit x p) h
  simp [frame_mask_testBit, testBit_one_shiftLeft] at h2

theorem frame_mask_disjoint {p q : Nat} (h : p + 1 < q ∨ q + 1 < p) :
    ((1 <<< p) ||| (1 <<< (p + 1))) &&& ((1 <<< q) ||| (1 <<< (q + 1))) = 0 := by
  apply Nat.eq_of_testBit_eq
  intro i
  simp only [Nat.testBit_land, frame_mask_testBit, Nat.zero_testBit]
  by_cases h1 : p = i <;> by_cases h2 : p + 1 = i <;> by_cases h3 : q = i <;>
    by_cases h4 : q + 1 = i <;> simp [h1, h2, h3, h4] <;> omega

theorem hi_disjoint_frame_mask {p q : Nat} (h : p + 1 < q ∨ q + 1 < p) :
    (1 <<< (p + 1)) &&& ((1 <<< q) ||| (1 <<< (q + 1))) = 0 := by
  apply Nat.eq_of_testBit_eq
  intro i
  simp only [Nat.testBit_land, frame_mask_testBit, testBit_one_shiftLeft, Nat.zero_testBit]
  by_cases h2 : p + 1 = i <;> by_cases h3 : q = i <;> by_cases h4 : q + 1 = i <;>
    simp [h2, h3, h4] <;> omega

/-- Reading back a frame state just written yields that state. -/
theorem get_set_same (bm : Bitmap) (f : Nat) (s : FrameState) :
    get_state (set_state bm f s) f = s := by
  unfold get_state set_state
  simp only [if_true]
  cases s
  · simp [ldiff_land_self]
  · rw [lor_land_self]
    simp [frame_mask_ne_zero]
  · rw [ldiff_lor_land, hi_land_frame_mask]
    have h1 : (1 : Nat) <<< (2 * (f % 4) + 1) ≠ 0 := by
      intro h
      have h2 := congrArg (fun x => Nat.testBit x (2 * (f % 4) + 1)) h
      simp [testBit_one_shiftLeft] at h2
    simp [h1, hi_ne_frame_mask]

/-- Writing one frame's state leaves every other frame's state unchanged. -/
theorem get_set_other (bm : Bitmap) (f : Nat) (s : FrameState) (g : Nat) (h : g ≠ f) :
    get_state (set_state bm f s) g = get_state bm g := by
  unfold get_state set_state
  simp only
  by_cases hb : g / 4 = f / 4
  · rw [if_pos hb]
    have hm : g % 4 ≠ f % 4 := by
      intro hc
      exact h (by omega)
    have hd : 2 * (f % 4) + 1 < 2 * (g % 4) ∨ 2 * (g % 4) + 1 < 2 * (f % 4) := by omega
    rw [hb]
    cases s
    · rw [ldiff_land_of_disjoint _ (frame_mask_disjoint hd)]
    · rw [lor_land_of_disjoint _ (frame_mask_disjoint hd)]
    · rw [lor_land_of_disjoint _ (hi_disjoint_frame_mask hd),
        ldiff_land_of_disjoint _ (frame_mask_disjoint hd)]
  · rw [if_neg hb]

/-- `get_state` returns `Free` exactly when the frame's 2-bit field is `00`. -/
theorem get_state_free_iff (bm : Bitmap) (f : Nat) :
    get_state bm f = FrameState.Free ↔
      bm (f / 4) &&& ((1 <<< (2 * (f % 4))) ||| (1 <<< (2 * (f % 4) + 1))) = 0 := by
  unfold get_state
  simp only
  by_cases h0 : bm (f / 4) &&& ((1 <<< (2 * (f % 4))) ||| (1 <<< (2 * (f % 4) + 1))) = 0
  · simp [h0]
  · rw [if_neg h0]
    by_cases h1 : bm (f / 4) &&& ((1 <<< (2 * (f % 4))) ||| (1 <<< (2 * (f % 4) + 1))) =
        (1 <<< (2 * (f % 4))) ||| (1 <<< (2 * (f % 4) + 1))
    · simp [h1, h0, frame_mask_ne_zero]
    · simp [h1, h0]

/-- Re-marking a `Free` frame as `Free` leaves the byte store unchanged. -/
theorem set_state_free_of_free (bm : Bitmap) (f : Nat)
    (h : get_state bm f = FrameState.Free) : set_state bm f FrameState.Free = bm := by
  funext j
  unfold set_state
  simp only
  by_cases hj : j = f / 4
  · rw [if_pos hj, hj]
    exact ldiff_eq_self_of_land_eq_zero ((get_state_free_iff bm f).mp h)
  · rw [if_neg hj]

/-- The constructor's initialization loop: `for (fno = 0; fno < n; fno++)
set_state(fno, Free)`, applied in ascending order. -/
def initFrames (bm : Bitmap) : Nat → Bitmap
  | 0 => bm
  | k + 1 => set_state (initFrames bm k) k FrameState.Free

/-- The per-pool state of `class ContFramePool`. -/
structure ContFramePool where
  base_frame_no : Nat
  n_frames : Nat
  n_free_frames : Nat
  info_frame_no : Nat
  bitmap : Bitmap

/-- `ContFramePool::ContFramePool`.  The `assert(_n_frames <= FRAME_SIZE * 8)`
capacity check is the `none` case.  `mem` is the (arbitrary) prior content of
the memory holding the bitmap; registration in the static pool list is
modelled by the `List ContFramePool` arguments of `release_frames`. -/
def ContFramePool.construct (base n info : Nat) (mem : Bitmap) : Option ContFramePool :=
  if n ≤ FRAME_SIZE * 8 then
    let bm := initFrames mem n
    if info = 0 then
      some { base_frame_no := base, n_frames := n, n_free_frames := dec32 n,
             info_frame_no := info, bitmap := set_state bm 0 FrameState.Used }
    else
      some { base_frame_no := base, n_frames := n, n_free_frames := n,
             info_frame_no := info, bitmap := bm }
  else none

/-- The scanning loop of `ContFramePool::get_frames`, from index `i` with the
running count of consecutive `Free` frames seen so far; returns the index at
which the count reaches `n`, if any. -/
def scanFrom (bm : Bitmap) (N n i count : Nat) : Option Nat :=
  if h : i < N then
    let count' := if get_state bm i = FrameState.Free then count + 1 else 0
    if count' = n then some i
    else scanFrom bm N n (i + 1) count'
  else none
termination_by N - i

/-- The marking loop shared by `get_frames` and `mark_inaccessible`:
`for (i = start; i < stop; i++) { set_state(i, Used); n_free_frames--; }`. -/
def markUsedRange (p : ContFramePool) (i stop : Nat) : ContFramePool :=
  if h : i < stop then
    markUsedRange { p with bitmap := set_state p.bitmap i FrameState.Used,
                           n_free_frames := dec32 p.n_free_frames } (i + 1) stop
  else p
termination_by stop - i

/-- `ContFramePool::get_frames`.  `none` is the fatal
`assert(n_free_frames > 0)`; `some (0, p)` is the not-found sentinel return
(state untouched); otherwise the first frame of the found run is marked
`HoS`, the rest `Used`, the free count drops by `n`, and the absolute frame
number `start_frame + base_frame_no` is returned. -/
def ContFramePool.get_frames (p : ContFramePool) (n : Nat) : Option (Nat × ContFramePool) :=
  if 0 < p.n_free_frames then
    match scanFrom p.bitmap p.n_frames n 0 0 with
    | none => some (0, p)
    | some i =>
      let start_frame := i + 1 - n
      some (start_frame + p.base_frame_no,
        markUsedRange { p with bitmap := set_state p.bitmap start_frame FrameState.HoS,
                               n_free_frames := dec32 p.n_free_frames }
          (start_frame + 1) (start_frame + n))
  else none

/-- `ContFramePool::mark_inaccessible`: marks bitmap offset `_base_frame_no`
`HoS` and the following `n - 1` offsets `Used`, decrementing the free count
each time.  (The source uses its `_base_frame_no` argument directly as the
bitmap index; it does not subtract the pool's own `base_frame_no`.) -/
def ContFramePool.mark_inaccessible (p : ContFramePool) (b n : Nat) : ContFramePool :=
  markUsedRange { p with bitmap := set_state p.bitmap b FrameState.HoS,
                         n_free_frames := dec32 p.n_free_frames } (b + 1) (b + n)

/-- The forward sweep of `ContFramePool::release_frames`: starting at absolute
frame `f`, free each `Used` frame and bump the free count until a non-`Used`
frame is met.  `fuel` bounds the sweep (the source loop has no bound of its
own; every theorem below supplies fuel past the run's natural boundary, where
the result no longer depends on it). -/
def releaseWalk (bm : Bitmap) (cnt base f fuel : Nat) : Bitmap × Nat :=
  match fuel with
  | 0 => (bm, cnt)
  | fuel' + 1 =>
    if get_state bm (f - base) = FrameState.Used then
      releaseWalk (set_state bm (f - base) FrameState.Free) (inc32 cnt) base (f + 1) fuel'
    else (bm, cnt)

/-- The part of `ContFramePool::release_frames` acting on the owning pool:
reject unless frame `f` is `HoS`, otherwise free it, bump the count, and run
the forward sweep from `f + 1`. -/
def ContFramePool.release_frames_pool (p : ContFramePool) (f fuel : Nat) : ContFramePool :=
  if get_state p.bitmap (f - p.base_frame_no) ≠ FrameState.HoS then p
  else
    let bm1 := set_state p.bitmap (f - p.base_frame_no) FrameState.Free
    let r := releaseWalk bm1 (inc32 p.n_free_frames) p.base_frame_no (f + 1) fuel
    { p with bitmap := r.1, n_free_frames := r.2 }

/-- `ContFramePool::release_frames` (static): walk the registered-pool list for
the first pool whose `[base_frame_no, base_frame_no + n_frames)` range holds
`f`; if none, report failure and change nothing; otherwise act on that pool. -/
def ContFramePool.release_frames (pools : List ContFramePool) (f fuel : Nat) :
    List ContFramePool :=
  match pools with
  | [] => []
  | p :: rest =>
    if p.base_frame_no ≤ f ∧ f < p.base_frame_no + p.n_frames then
      ContFramePool.release_frames_pool p f fuel :: rest
    else p :: ContFramePool.release_frames rest f fuel

/-- `ContFramePool::needed_info_frames`: ceiling of `n` over the
`8 * FRAME_SIZE / 2` frames describable per info frame. -/
def needed_info_frames (n : Nat) : Nat :=
  let max_bits_in_frame := 8 * FRAME_SIZE / 2
  n / max_bits_in_frame + (if n % max_bits_in_frame > 0 then 1 else 0)

/-- The number of `Free` frames among frames `0 .. N - 1` of a bitmap. -/
def countFree (bm : Bitmap) : Nat → Nat
  | 0 => 0
  | N + 1 => countFree bm N + (if get_state bm N = FrameState.Free then 1 else 0)

/-- One entry of the `allocated_region` table (`struct allocated_vm_region`). -/
structure VMRegion where
  base_address : Nat
  size : Nat
deriving DecidableEq

/-- The state of `class VMPool`.  The region table, physically self-hosted at
the pool's own base address in the source, is modelled as a total store. -/
structure VMPool where
  base_address : Nat
  size : Nat
  allocated_region : Nat → VMRegion
  region_iterator : Nat

/-- Modelled from the spec: `vm_pool.H` is absent from the sources; the region
table is fixed-capacity ("rejects if the region table is at capacity"), with
a capacity value not observable in the sources. -/
def MAX_VM_REGIONS : Nat := 512

/-- `VMPool::VMPool`: stores the fixed fields and starts with zero live
regions; `mem` is the prior content of the self-hosted region table. -/
def VMPool.construct (base s : Nat) (mem : Nat → VMRegion) : VMPool :=
  { base_address := base, size := s, allocated_region := mem, region_iterator := 0 }

/-- `VMPool::allocate`.  `none` is an `assert(false)` (zero size, or table
full); otherwise the size is rounded up to whole pages, the new region is
placed at `base_address` (first region) or right after the previous region,
the table and the counter are updated, and the new base is returned. -/
def VMPool.allocate (p : VMPool) (s : Nat) : Option (Nat × VMPool) :=
  if s = 0 then none
  else if p.region_iterator = MAX_VM_REGIONS then none
  else
    let n_pages_needed := s / PAGE_SIZE + (if s % PAGE_SIZE > 0 then 1 else 0)
    let final_mem_size := n_pages_needed * PAGE_SIZE % M32
    let newbase :=
      if p.region_iterator = 0 then p.base_address
      else ((p.allocated_region (p.region_iterator - 1)).base_address +
            (p.allocated_region (p.region_iterator - 1)).size) % M32
    some (newbase,
      { p with
        allocated_region := fun j =>
          if j = p.region_iterator then { base_address := newbase, size := final_mem_size }
          else p.allocated_region j,
        region_iterator := p.region_iterator + 1 })

/-- The search loop of `VMPool::release`: the first slot below
`region_iterator` whose recorded base equals `start`, or `region_iterator`
itself when no slot matches (the source then reads one past the live slots). -/
def findRegionIdxAux (p : VMPool) (start i : Nat) : Nat :=
  if h : i < p.region_iterator then
    if (p.allocated_region i).base_address = start then i
    else findRegionIdxAux p start (i + 1)
  else i
termination_by p.region_iterator - i

/-- `VMPool::release`.  Returns the list of page addresses passed one by one
to `page_table->free_page`, whether a page-table reload (`load()`, flushing
the TLB) was requested, and the updated pool: later descriptors are shifted
one slot down and the region counter is decremented. -/
def VMPool.release (p : VMPool) (start : Nat) : List Nat × Bool × VMPool :=
  let indx := findRegionIdxAux p start 0
  let n_pages_allocated := (p.allocated_region indx).size / PAGE_SIZE
  let freed := (List.range n_pages_allocated).map
    (fun i => ((p.allocated_region indx).base_address + i * PAGE_SIZE) % M32)
  let shifted := fun j =>
    if indx ≤ j ∧ j < p.region_iterator then p.allocated_region (j + 1)
    else p.allocated_region j
  (freed, true,
    { p with allocated_region := shifted, region_iterator := dec32 p.region_iterator })

/-- `VMPool::is_legitimate`: `base_address <= a && a <= base_address + size`,
inclusive on both ends (32-bit address arithmetic). -/
def VMPool.is_legitimate (p : VMPool) (a : Nat) : Bool :=
  let last_address := (p.base_address + p.size) % M32
  if p.base_address ≤ a ∧ a ≤ last_address then true else false


theorem dec32Iter_shift (k x : Nat) : dec32Iter (dec32 x) k = dec32 (dec32Iter x k) := by
  induction k with
  | zero => rfl
  | succ m ih => simp only [dec32Iter, ih]

theorem inc32Iter_shift (k x : Nat) : inc32Iter (inc32 x) k = inc32 (inc32Iter x k) := by
  induction k with
  | zero => rfl
  | succ m ih => simp only [inc32Iter, ih]

theorem dec32Iter_eq (k : Nat) : ∀ x, k ≤ x → x < M32 → dec32Iter x k = x - k := by
  induction k with
  | zero => intro x _ _; rfl
  | succ m ih =>
    intro x hk hx
    have h1 : dec32Iter x (m + 1) = dec32 (dec32Iter x m) := rfl
    rw [h1, ih x (by omega) hx]
    unfold dec32 M32 at *
    omega

theorem inc32Iter_eq (k : Nat) : ∀ x, x + k < M32 → inc32Iter x k = x + k := by
  induction k with
  | zero => intro x _; rfl
  | succ m ih =>
    intro x hx
    have h1 : inc32Iter x (m + 1) = inc32 (inc32Iter x m) := rfl
    rw [h1, ih x (by omega)]
    unfold inc32 M32 at *
    omega

theorem markUsedRange_fields : ∀ fuel p i stop, stop - i ≤ fuel →
    (markUsedRange p i stop).base_frame_no = p.base_frame_no ∧
    (markUsedRange p i stop).n_frames = p.n_frames ∧
    (markUsedRange p i stop).info_frame_no = p.info_frame_no := by
  intro fuel
  induction fuel with
  | zero =>
    intro p i stop h
    rw [markUsedRange, dif_neg (by omega)]
    exact ⟨rfl, rfl, rfl⟩
  | succ k ih =>
    intro p i stop h
    rw [markUsedRange]
    by_cases hlt : i < stop
    · rw [dif_pos hlt]
      exact ih _ (i + 1) stop (by omega)
    · rw [dif_neg hlt]
      exact ⟨rfl, rfl, rfl⟩

theorem markUsedRange_get : ∀ fuel p i stop g, stop - i ≤ fuel →
    get_state (markUsedRange p i stop).bitmap g =
      if i ≤ g ∧ g < stop then FrameState.Used else get_state p.bitmap g := by
  intro fuel
  induction fuel with
  | zero =>
    intro p i stop g h
    rw [markUsedRange, dif_neg (by omega), if_neg (by omega)]
  | succ k ih =>
    intro p i stop g h
    rw [markUsedRange]
    by_cases hlt : i < stop
    · rw [dif_pos hlt, ih _ (i + 1) stop g (by omega)]
      by_cases hg : i + 1 ≤ g ∧ g < stop
      · rw [if_pos hg, if_pos (by omega)]
      · rw [if_neg hg]
        by_cases hgi : g = i
        · subst hgi
          rw [get_set_same, if_pos (by omega)]
        · rw [get_set_other _ _ _ _ hgi, if_neg (by omega)]
    · rw [dif_neg hlt, if_neg (by omega)]

theorem markUsedRange_count : ∀ fuel p i stop, stop - i ≤ fuel →
    (markUsedRange p i stop).n_free_frames = dec32Iter p.n_free_frames (stop - i) := by
  intro fuel
  induction fuel with
  | zero =>
    intro p i stop h
    rw [markUsedRange, dif_neg (by omega)]
    have h0 : stop - i = 0 := by omega
    rw [h0]
    rfl
  | succ k ih =>
    intro p i stop h
    rw [markUsedRange]
    by_cases hlt : i < stop
    · rw [dif_pos hlt, ih _ (i + 1) stop (by omega)]
      dsimp only
      rw [dec32Iter_shift]
      have h1 : stop - i = (stop - (i + 1)) + 1 := by omega
      rw [h1]
      rfl
    · rw [dif_neg hlt]
      have h0 : stop - i = 0 := by omega
      rw [h0]
      rfl

theorem mark_inaccessible_fields (p : ContFramePool) (b n : Nat) :
    (p.mark_inaccessible b n).base_frame_no = p.base_frame_no ∧
    (p.mark_inaccessible b n).n_frames = p.n_frames ∧
    (p.mark_inaccessible b n).info_frame_no = p.info_frame_no :=
  markUsedRange_fields (b + n) _ (b + 1) (b + n) (by omega)

theorem mark_inaccessible_get (p : ContFramePool) (b n g : Nat) :
    get_state (p.mark_inaccessible b n).bitmap g =
      if g = b then FrameState.HoS
      else if b ≤ g ∧ g < b + n then FrameState.Used
      else get_state p.bitmap g := by
  unfold ContFramePool.mark_inaccessible
  rw [markUsedRange_get (b + n) _ (b + 1) (b + n) g (by omega)]
  by_cases hgb : g = b
  · subst hgb
    rw [if_neg (by omega), if_pos rfl, get_set_same]
  · rw [if_neg hgb]
    by_cases hg : b + 1 ≤ g ∧ g < b + n
    · rw [if_pos hg, if_pos (by omega)]
    · rw [if_neg hg, if_neg (by omega), get_set_other _ _ _ _ hgb]

theorem mark_inaccessible_count (p : ContFramePool) (b n : Nat) (hn : 1 ≤ n) :
    (p.mark_inaccessible b n).n_free_frames = dec32Iter p.n_free_frames n := by
  unfold ContFramePool.mark_inaccessible
  rw [markUsedRange_count (b + n) _ (b + 1) (b + n) (by omega)]
  dsimp only
  rw [dec32Iter_shift]
  have h1 : (b + n) - (b + 1) = n - 1 := by omega
  have h3 : n = (n - 1) + 1 := by omega
  rw [h1]
  conv_rhs => rw [h3]
  rfl

theorem initFrames_get (mem : Bitmap) : ∀ n f, f < n →
    get_state (initFrames mem n) f = FrameState.Free := by
  intro n
  induction n with
  | zero => intro f h; omega
  | succ k ih =>
    intro f h
    simp only [initFrames]
    by_cases hf : f = k
    · subst hf
      exact get_set_same _ _ _
    · rw [get_set_other _ _ _ _ hf]
      exact ih f (by omega)

/-- Frames `s, s + 1, …, s + n - 1` are all `Free`. -/
def freeRun (bm : Bitmap) (s n : Nat) : Prop :=
  ∀ j < n, get_state bm (s + j) = FrameState.Free

theorem scanFrom_step (bm : Bitmap) (N n i count : Nat) (h : i < N) :
    scanFrom bm N n i count =
      (if (if get_state bm i = FrameState.Free then count + 1 else 0) = n then some i
       else scanFrom bm N n (i + 1)
         (if get_state bm i = FrameState.Free then count + 1 else 0)) := by
  rw [scanFrom, dif_pos h]

theorem scanFrom_spec : ∀ fuel (bm : Bitmap) (N n : Nat), 1 ≤ n → ∀ i count,
    N - i ≤ fuel →
    count ≤ i → count < n →
    freeRun bm (i - count) count →
    (∀ k, k ≤ n → k ≤ i → freeRun bm (i - k) k → k ≤ count) →
    (∀ t, t + n ≤ i → ¬ freeRun bm t n) →
    ((∀ j, scanFrom bm N n i count = some j →
        j < N ∧ n ≤ j + 1 ∧ freeRun bm (j + 1 - n) n ∧
        ∀ t, freeRun bm t n → j + 1 - n ≤ t) ∧
     (scanFrom bm N n i count = none → ∀ t, t + n ≤ N → ¬ freeRun bm t n)) := by
  intro fuel
  induction fuel with
  | zero =>
    intro bm N n hn i count hfuel hci hcn hstreak hdom hnoe
    rw [scanFrom, dif_neg (by omega)]
    constructor
    · intro j hj
      exact absurd hj (by simp)
    · intro _ t ht
      exact hnoe t (by omega)
  | succ fu ih =>
    intro bm N n hn i count hfuel hci hcn hstreak hdom hnoe
    by_cases hiN : i < N
    · rw [scanFrom_step bm N n i count hiN]
      by_cases hst : get_state bm i = FrameState.Free
      · rw [if_pos hst]
        by_cases hcount : count + 1 = n
        · rw [if_pos hcount]
          constructor
          · intro j hj
            have hji : j = i := by
              injection hj with hj2
              exact hj2.symm
            subst hji
            refine ⟨hiN, by omega, ?_, ?_⟩
            · intro m hm
              by_cases hmc : m < count
              · have h1 := hstreak m hmc
                have h2 : j + 1 - n + m = j - count + m := by omega
                rw [h2]
                exact h1
              · have hmeq : m = count := by omega
                subst hmeq
                have h2 : j + 1 - n + m = j := by omega
                rw [h2]
                exact hst
            · intro t hft
              by_contra hlt
              exact hnoe t (by omega) hft
          · intro hnone
            exact absurd hnone (by simp)
        · rw [if_neg hcount]
          have hstreak2 : freeRun bm (i + 1 - (count + 1)) (count + 1) := by
            intro m hm
            by_cases hmc : m < count
            · have h1 := hstreak m hmc
              have h2 : i + 1 - (count + 1) + m = i - count + m := by omega
              rw [h2]
              exact h1
            · have hmeq : m = count := by omega
              rw [hmeq]
              have h2 : i + 1 - (count + 1) + count = i := by omega
              rw [h2]
              exact hst
          have hdom2 : ∀ k, k ≤ n → k ≤ i + 1 → freeRun bm (i + 1 - k) k → k ≤ count + 1 := by
            intro k hk1 hk2 hrun
            rcases Nat.eq_zero_or_pos k with hk0 | hk0
            · omega
            · have hsub : freeRun bm (i - (k - 1)) (k - 1) := by
                intro m hm
                have h1 := hrun m (by omega)
                have h2 : i - (k - 1) + m = i + 1 - k + m := by omega
                rw [h2]
                exact h1
              have h3 := hdom (k - 1) (by omega) (by omega) hsub
              omega
          have hnoe2 : ∀ t, t + n ≤ i + 1 → ¬ freeRun bm t n := by
            intro t ht hrun
            by_cases hto : t + n ≤ i
            · exact hnoe t hto hrun
            · have hteq : t = i + 1 - n := by omega
              have h3 := hdom2 n (by omega) (by omega) (by rw [← hteq]; exact hrun)
              omega
          exact ih bm N n hn (i + 1) (count + 1) (by omega) (by omega) (by omega)
            hstreak2 hdom2 hnoe2
      · rw [if_neg hst, if_neg (by omega)]
        have hstreak2 : freeRun bm (i + 1 - 0) 0 := by
          intro m hm
          omega
        have hdom2 : ∀ k, k ≤ n → k ≤ i + 1 → freeRun bm (i + 1 - k) k → k ≤ 0 := by
          intro k hk1 hk2 hrun
          rcases Nat.eq_zero_or_pos k with hk0 | hk0
          · omega
          · have h1 := hrun (k - 1) (by omega)
            have h2 : i + 1 - k + (k - 1) = i := by omega
            rw [h2] at h1
            exact absurd h1 hst
        have hnoe2 : ∀ t, t + n ≤ i + 1 → ¬ freeRun bm t n := by
          intro t ht hrun
          by_cases hto : t + n ≤ i
          · exact hnoe t hto hrun
          · have h1 := hrun (n - 1) (by omega)
            have h2 : t + (n - 1) = i := by omega
            rw [h2] at h1
            exact absurd h1 hst
        exact ih bm N n hn (i + 1) 0 (by omega) (by omega) (by omega)
          hstreak2 hdom2 hnoe2
    · rw [scanFrom, dif_neg hiN]
      constructor
      · intro j hj
        exact absurd hj (by simp)
      · intro _ t ht
        exact hnoe t (by omega)

theorem scanFrom_some_spec (bm : Bitmap) (N n j : Nat) (hn : 1 ≤ n)
    (h : scanFrom bm N n 0 0 = some j) :
    j < N ∧ n ≤ j + 1 ∧ freeRun bm (j + 1 - n) n ∧
      ∀ t, freeRun bm t n → j + 1 - n ≤ t := by
  have hspec := scanFrom_spec N bm N n hn 0 0 (by omega) (by omega) (by omega)
    (by intro m hm; omega) (by intro k hk1 hk2 _; omega) (by intro t ht; omega)
  exact hspec.1 j h

theorem scanFrom_none_spec (bm : Bitmap) (N n : Nat) (hn : 1 ≤ n)
    (h : scanFrom bm N n 0 0 = none) :
    ∀ t, t + n ≤ N → ¬ freeRun bm t n := by
  have hspec := scanFrom_spec N bm N n hn 0 0 (by omega) (by omega) (by omega)
    (by intro m hm; omega) (by intro k hk1 hk2 _; omega) (by intro t ht; omega)
  exact hspec.2 h

theorem get_frames_eq_found (p : ContFramePool) (n j : Nat)
    (hfree : 0 < p.n_free_frames)
    (hscan : scanFrom p.bitmap p.n_frames n 0 0 = some j) :
    p.get_frames n = some ((j + 1 - n) + p.base_frame_no, p.mark_inaccessible (j + 1 - n) n) := by
  unfold ContFramePool.get_frames
  rw [if_pos hfree, hscan]
  rfl

theorem get_frames_eq_sentinel (p : ContFramePool) (n : Nat)
    (hfree : 0 < p.n_free_frames)
    (hscan : scanFrom p.bitmap p.n_frames n 0 0 = none) :
    p.get_frames n = some (0, p) := by
  unfold ContFramePool.get_frames
  rw [if_pos hfree, hscan]

theorem scanFrom_found_of_run (bm : Bitmap) (N n : Nat) (hn : 1 ≤ n)
    (hex : ∃ t, t + n ≤ N ∧ freeRun bm t n) :
    ∃ j, scanFrom bm N n 0 0 = some j := by
  cases hscan : scanFrom bm N n 0 0 with
  | none =>
    obtain ⟨t, ht, hrun⟩ := hex
    exact absurd hrun (scanFrom_none_spec bm N n hn hscan t ht)
  | some j => exact ⟨j, rfl⟩

/-- When `s` is the least start of an `n`-long `Free` run inside the pool,
`get_frames` succeeds, returns `s + base_frame_no`, and marks exactly the
way `mark_inaccessible` does at bitmap offset `s`. -/
theorem get_frames_found_spec (p : ContFramePool) (n s : Nat)
    (hn : 1 ≤ n) (hfree : 0 < p.n_free_frames)
    (hs : s + n ≤ p.n_frames) (hrun : freeRun p.bitmap s n)
    (hleast : ∀ t, t < p.n_frames → t + n ≤ p.n_frames → freeRun p.bitmap t n → s ≤ t) :
    p.get_frames n = some (s + p.base_frame_no, p.mark_inaccessible s n) := by
  obtain ⟨j, hj⟩ := scanFrom_found_of_run p.bitmap p.n_frames n hn ⟨s, hs, hrun⟩
  obtain ⟨hjN, hjn, hjrun, hjmin⟩ := scanFrom_some_spec _ _ _ _ hn hj
  have hse : j + 1 - n = s := by
    have h1 := hjmin s hrun
    have h2 := hleast (j + 1 - n) (by omega) (by omega) hjrun
    omega
  rw [get_frames_eq_found p n j hfree hj, hse]

/-- When no `n`-long `Free` run exists inside the pool, `get_frames` returns
the sentinel `0` and the pool completely unchanged. -/
theorem get_frames_none_spec (p : ContFramePool) (n : Nat)
    (hn : 1 ≤ n) (hfree : 0 < p.n_free_frames)
    (hno : ∀ t, t < p.n_frames → t + n ≤ p.n_frames → ¬ freeRun p.bitmap t n) :
    p.get_frames n = some (0, p) := by
  cases hscan : scanFrom p.bitmap p.n_frames n 0 0 with
  | none => exact get_frames_eq_sentinel p n hfree hscan
  | some j =>
    obtain ⟨hjN, hjn, hjrun, hjmin⟩ := scanFrom_some_spec _ _ _ _ hn hscan
    exact absurd hjrun (hno (j + 1 - n) (by omega) (by omega))

theorem releaseWalk_spec : ∀ k bm cnt base r fuel, k ≤ fuel →
    (∀ t, t < k → get_state bm (r + t) = FrameState.Used) →
    get_state bm (r + k) ≠ FrameState.Used →
    (releaseWalk bm cnt base (base + r) fuel).2 = inc32Iter cnt k ∧
    ∀ g, get_state (releaseWalk bm cnt base (base + r) fuel).1 g =
      if r ≤ g ∧ g < r + k then FrameState.Free else get_state bm g := by
  intro k
  induction k with
  | zero =>
    intro bm cnt base r fuel hk hrun hstop
    have hstop0 : get_state bm r ≠ FrameState.Used := by
      have h0 : r + 0 = r := by omega
      rw [h0] at hstop
      exact hstop
    cases fuel with
    | zero =>
      rw [releaseWalk]
      exact ⟨rfl, by intro g; rw [if_neg (by omega)]⟩
    | succ fu =>
      rw [releaseWalk]
      have h1 : base + r - base = r := by omega
      rw [h1, if_neg hstop0]
      exact ⟨rfl, by intro g; rw [if_neg (by omega)]⟩
  | succ m ih =>
    intro bm cnt base r fuel hk hrun hstop
    cases fuel with
    | zero => omega
    | succ fu =>
      rw [releaseWalk]
      have h1 : base + r - base = r := by omega
      have hr0 : get_state bm r = FrameState.Used := by
        have h2 := hrun 0 (by omega)
        have h3 : r + 0 = r := by omega
        rw [h3] at h2
        exact h2
      rw [h1, if_pos hr0]
      have harg : base + r + 1 = base + (r + 1) := by omega
      rw [harg]
      have hrun2 : ∀ t, t < m →
          get_state (set_state bm r FrameState.Free) (r + 1 + t) = FrameState.Used := by
        intro t ht
        rw [get_set_other _ _ _ _ (by omega : r + 1 + t ≠ r)]
        have h2 := hrun (t + 1) (by omega)
        have h3 : r + (t + 1) = r + 1 + t := by omega
        rw [h3] at h2
        exact h2
      have hstop2 : get_state (set_state bm r FrameState.Free) (r + 1 + m) ≠
          FrameState.Used := by
        rw [get_set_other _ _ _ _ (by omega : r + 1 + m ≠ r)]
        have h3 : r + 1 + m = r + (m + 1) := by omega
        rw [h3]
        exact hstop
      obtain ⟨hc, hb⟩ := ih (set_state bm r FrameState.Free) (inc32 cnt) base (r + 1) fu
        (by omega) hrun2 hstop2
      refine ⟨?_, ?_⟩
      · rw [hc, inc32Iter_shift]
        rfl
      · intro g
        rw [hb g]
        by_cases hg : r + 1 ≤ g ∧ g < r + 1 + m
        · rw [if_pos hg, if_pos (by omega)]
        · rw [if_neg hg]
          by_cases hgr : g = r
          · subst hgr
            rw [get_set_same, if_pos (by omega)]
          · rw [get_set_other _ _ _ _ hgr, if_neg (by omega)]

theorem release_frames_pool_rejected (p : ContFramePool) (f fuel : Nat)
    (h : get_state p.bitmap (f - p.base_frame_no) ≠ FrameState.HoS) :
    p.release_frames_pool f fuel = p := by
  unfold ContFramePool.release_frames_pool
  rw [if_pos h]

/-- An accepted `release_frames` on the owning pool: frame offset `s` is
`HoS`, the following `k` offsets are `Used`, and offset `s + 1 + k` is not
`Used`; the sweep frees exactly offsets `s .. s + k` and bumps the free
count `k + 1` times. -/
theorem release_frames_pool_accepted (p : ContFramePool) (s k fuel : Nat)
    (hhos : get_state p.bitmap s = FrameState.HoS)
    (hrun : ∀ t, t < k → get_state p.bitmap (s + 1 + t) = FrameState.Used)
    (hstop : get_state p.bitmap (s + 1 + k) ≠ FrameState.Used)
    (hk : k ≤ fuel) :
    (p.release_frames_pool (p.base_frame_no + s) fuel).n_free_frames =
      inc32Iter (inc32 p.n_free_frames) k ∧
    (∀ g, get_state (p.release_frames_pool (p.base_frame_no + s) fuel).bitmap g =
      if s ≤ g ∧ g < s + 1 + k then FrameState.Free else get_state p.bitmap g) ∧
    (p.release_frames_pool (p.base_frame_no + s) fuel).base_frame_no = p.base_frame_no ∧
    (p.release_frames_pool (p.base_frame_no + s) fuel).n_frames = p.n_frames := by
  unfold ContFramePool.release_frames_pool
  have h1 : p.base_frame_no + s - p.base_frame_no = s := by omega
  rw [h1]
  rw [if_neg (by simp [hhos])]
  have hrun2 : ∀ t, t < k →
      get_state (set_state p.bitmap s FrameState.Free) (s + 1 + t) = FrameState.Used := by
    intro t ht
    rw [get_set_other _ _ _ _ (by omega : s + 1 + t ≠ s)]
    exact hrun t ht
  have hstop2 : get_state (set_state p.bitmap s FrameState.Free) (s + 1 + k) ≠
      FrameState.Used := by
    rw [get_set_other _ _ _ _ (by omega : s + 1 + k ≠ s)]
    exact hstop
  have harg : p.base_frame_no + s + 1 = p.base_frame_no + (s + 1) := by omega
  rw [harg]
  obtain ⟨hc, hb⟩ := releaseWalk_spec k (set_state p.bitmap s FrameState.Free)
    (inc32 p.n_free_frames) p.base_frame_no (s + 1) fuel hk hrun2 hstop2
  refine ⟨hc, ?_, rfl, rfl⟩
  intro g
  rw [hb g]
  by_cases hg : s + 1 ≤ g ∧ g < s + 1 + k
  · rw [if_pos hg, if_pos (by omega)]
  · rw [if_neg hg]
    by_cases hgs : g = s
    · subst hgs
      rw [get_set_same, if_pos (by omega)]
    · rw [get_set_other _ _ _ _ hgs, if_neg (by omega)]

theorem release_frames_unchanged (f fuel : Nat) : ∀ pools : List ContFramePool,
    (∀ p ∈ pools, p.base_frame_no ≤ f → f < p.base_frame_no + p.n_frames →
      get_state p.bitmap (f - p.base_frame_no) ≠ FrameState.HoS) →
    ContFramePool.release_frames pools f fuel = pools := by
  intro pools
  induction pools with
  | nil => intro _; rfl
  | cons p rest ih =>
    intro h
    rw [ContFramePool.release_frames]
    by_cases hin : p.base_frame_no ≤ f ∧ f < p.base_frame_no + p.n_frames
    · rw [if_pos hin,
        release_frames_pool_rejected p f fuel (h p (by simp) hin.1 hin.2)]
    · rw [if_neg hin, ih (by intro q hq hq1 hq2; exact h q (by simp [hq]) hq1 hq2)]

theorem release_frames_single (p : ContFramePool) (f fuel : Nat)
    (hin : p.base_frame_no ≤ f ∧ f < p.base_frame_no + p.n_frames) :
    ContFramePool.release_frames [p] f fuel = [p.release_frames_pool f fuel] := by
  rw [ContFramePool.release_frames, if_pos hin]

instance freeRunDecidable (bm : Bitmap) (s n : Nat) : Decidable (freeRun bm s n) :=
  inferInstanceAs (Decidable (∀ j < n, get_state bm (s + j) = FrameState.Free))

theorem countFree_le (bm : Bitmap) : ∀ N, countFree bm N ≤ N := by
  intro N
  induction N with
  | zero => simp [countFree]
  | succ M ih =>
    rw [countFree]
    by_cases h : get_state bm M = FrameState.Free <;> simp [h] <;> omega

theorem countFree_congr (bm1 bm2 : Bitmap) : ∀ N,
    (∀ f, f < N → get_state bm1 f = get_state bm2 f) →
    countFree bm1 N = countFree bm2 N := by
  intro N
  induction N with
  | zero => intro _; rfl
  | succ M ih =>
    intro h
    rw [countFree, countFree, ih (by intro f hf; exact h f (by omega)), h M (by omega)]

theorem countFree_all_free (bm : Bitmap) : ∀ N,
    (∀ f, f < N → get_state bm f = FrameState.Free) → countFree bm N = N := by
  intro N
  induction N with
  | zero => intro _; rfl
  | succ M ih =>
    intro h
    rw [countFree, ih (by intro f hf; exact h f (by omega)), if_pos (h M (by omega))]

/-- Turning a segment `[r, r + k)` of `Free` frames into non-`Free` frames,
while leaving every other frame's state unchanged, lowers the free count by
exactly `k`. -/
theorem countFree_segment (bmOld bmNew : Bitmap) (r : Nat) : ∀ N k, r + k ≤ N →
    (∀ g, g < N → (g < r ∨ r + k ≤ g) → get_state bmNew g = get_state bmOld g) →
    (∀ g, r ≤ g → g < r + k →
      get_state bmNew g ≠ FrameState.Free ∧ get_state bmOld g = FrameState.Free) →
    countFree bmNew N + k = countFree bmOld N := by
  intro N
  induction N with
  | zero =>
    intro k hk h2 h3
    have hk0 : k = 0 := by omega
    subst hk0
    rfl
  | succ M ih =>
    intro k hk h2 h3
    by_cases hin : r + k ≤ M
    · have hM := h2 M (by omega) (by omega)
      rw [countFree, countFree, hM]
      have := ih k hin (by intro g hg hgo; exact h2 g (by omega) hgo) h3
      omega
    · rcases Nat.eq_zero_or_pos k with hk0 | hk0
      · subst hk0
        exact countFree_congr bmNew bmOld (M + 1) (by intro f hf; exact h2 f hf (by omega))
      · have hM : r + k = M + 1 := by omega
        have hNla := h3 M (by omega) (by omega)
        rw [countFree, countFree, if_neg hNla.1, if_pos hNla.2]
        have := ih (k - 1) (by omega)
          (by
            intro g hg hgo
            exact h2 g (by omega) (by omega))
          (by
            intro g hg1 hg2
            exact h3 g hg1 (by omega))
        omega

/-- The `countFree` effect of `mark_inaccessible` on a range of `Free`
frames inside `[0, N)`. -/
theorem countFree_mark (p : ContFramePool) (b n N : Nat) (hn : 1 ≤ n)
    (hbn : b + n ≤ N)
    (hfree : ∀ j, j < n → get_state p.bitmap (b + j) = FrameState.Free) :
    countFree (p.mark_inaccessible b n).bitmap N + n = countFree p.bitmap N := by
  apply countFree_segment p.bitmap (p.mark_inaccessible b n).bitmap b N n hbn
  · intro g hg hgo
    rw [mark_inaccessible_get]
    rw [if_neg (by omega), if_neg (by omega)]
  · intro g hg1 hg2
    constructor
    · rw [mark_inaccessible_get]
      by_cases hgb : g = b
      · rw [if_pos hgb]
        simp
      · rw [if_neg hgb, if_pos (by omega)]
        simp
    · have := hfree (g - b) (by omega)
      have hgeq : b + (g - b) = g := by omega
      rw [hgeq] at this
      exact this

theorem dec32_eq_sub (x : Nat) (h1 : 1 ≤ x) (h2 : x < M32) : dec32 x = x - 1 := by
  unfold dec32 M32 at *
  omega

/-- `allocate` rounds a positive request up to a whole number of pages. -/
theorem roundup_spec (s : Nat) :
    s ≤ (s / PAGE_SIZE + if s % PAGE_SIZE > 0 then 1 else 0) * PAGE_SIZE ∧
    (s / PAGE_SIZE + if s % PAGE_SIZE > 0 then 1 else 0) * PAGE_SIZE < s + PAGE_SIZE ∧
    PAGE_SIZE ∣ (s / PAGE_SIZE + if s % PAGE_SIZE > 0 then 1 else 0) * PAGE_SIZE := by
  refine ⟨?_, ?_, dvd_mul_left PAGE_SIZE _⟩
  · by_cases h : s % PAGE_SIZE > 0
    · rw [if_pos h]
      unfold PAGE_SIZE at *
      omega
    · rw [if_neg h]
      unfold PAGE_SIZE at *
      omega
  · by_cases h : s % PAGE_SIZE > 0
    · rw [if_pos h]
      unfold PAGE_SIZE at *
      omega
    · rw [if_neg h]
      unfold PAGE_SIZE at *
      omega

/-- The address one past the last recorded region (the pool base when the
table is empty): the base address `allocate` will hand out next. -/
def lastEnd (p : VMPool) : Nat :=
  if p.region_iterator = 0 then p.base_address
  else (p.allocated_region (p.region_iterator - 1)).base_address +
       (p.allocated_region (p.region_iterator - 1)).size

/-- The no-release-yet shape of a `VMPool` region table: page-aligned pool
base, positive page-multiple sizes, the first region at `base_address`, each
later region immediately after its predecessor, and no 32-bit overflow. -/
def regionsChained (p : VMPool) : Prop :=
  PAGE_SIZE ∣ p.base_address ∧
  (∀ i, i < p.region_iterator →
    0 < (p.allocated_region i).size ∧ PAGE_SIZE ∣ (p.allocated_region i).size) ∧
  (0 < p.region_iterator → (p.allocated_region 0).base_address = p.base_address) ∧
  (∀ i, i < p.region_iterator - 1 → (p.allocated_region (i + 1)).base_address =
    (p.allocated_region i).base_address + (p.allocated_region i).size) ∧
  lastEnd p < M32

instance regionsChainedDecidable (p : VMPool) : Decidable (regionsChained p) := by
  unfold regionsChained
  infer_instance

theorem chained_mono (p : VMPool) (hp : regionsChained p) : ∀ j, j < p.region_iterator →
    ∀ i, i < j → (p.allocated_region i).base_address + (p.allocated_region i).size ≤
      (p.allocated_region j).base_address := by
  intro j
  induction j with
  | zero => intro _ i hi; omega
  | succ m ih =>
    intro hj i hi
    have hchain := hp.2.2.2.1 m (by omega)
    by_cases him : i = m
    · subst him
      omega
    · have h2 := ih (by omega) i (by omega)
      have h3 := (hp.2.1 m (by omega)).1
      omega

theorem chained_aligned (p : VMPool) (hp : regionsChained p) : ∀ i, i < p.region_iterator →
    PAGE_SIZE ∣ (p.allocated_region i).base_address := by
  intro i
  induction i with
  | zero =>
    intro hi
    rw [hp.2.2.1 hi]
    exact hp.1
  | succ m ih =>
    intro hi
    rw [hp.2.2.2.1 m (by omega)]
    exact Nat.dvd_add (ih (by omega)) (hp.2.1 m (by omega)).2

theorem chained_end_le (p : VMPool) (hp : regionsChained p) : ∀ i, i < p.region_iterator →
    (p.allocated_region i).base_address + (p.allocated_region i).size ≤ lastEnd p := by
  intro i hi
  unfold lastEnd
  rw [if_neg (by omega)]
  by_cases hil : i = p.region_iterator - 1
  · subst hil
    omega
  · have h2 := chained_mono p hp (p.region_iterator - 1) (by omega) i (by omega)
    have h3 := (hp.2.1 (p.region_iterator - 1) (by omega)).1
    omega

theorem chained_lastEnd_aligned (p : VMPool) (hp : regionsChained p) :
    PAGE_SIZE ∣ lastEnd p := by
  unfold lastEnd
  by_cases h0 : p.region_iterator = 0
  · rw [if_pos h0]
    exact hp.1
  · rw [if_neg h0]
    exact Nat.dvd_add (chained_aligned p hp _ (by omega)) (hp.2.1 _ (by omega)).2

theorem findRegionIdxAux_spec : ∀ fuel (p : VMPool) (start i k : Nat),
    k < p.region_iterator → i ≤ k → k - i ≤ fuel →
    (p.allocated_region k).base_address = start →
    (∀ j, i ≤ j → j < k → (p.allocated_region j).base_address ≠ start) →
    findRegionIdxAux p start i = k := by
  intro fuel
  induction fuel with
  | zero =>
    intro p start i k hk hik hfuel hbase hfirst
    have hike : i = k := by omega
    subst hike
    rw [findRegionIdxAux, dif_pos (by omega), if_pos hbase]
  | succ fu ih =>
    intro p start i k hk hik hfuel hbase hfirst
    by_cases hike : i = k
    · subst hike
      rw [findRegionIdxAux, dif_pos (by omega), if_pos hbase]
    · rw [findRegionIdxAux, dif_pos (by omega), if_neg (hfirst i (by omega) (by omega))]
      exact ih p start (i + 1) k hk (by omega) (by omega) hbase
        (by intro j hj1 hj2; exact hfirst j (by omega) hj2)

/-- All-zero prior memory content for bitmaps. -/
def zeroBitmap : Bitmap := fun _ => 0

/-- Fallback pool for `Option.getD`. -/
def defaultPool : ContFramePool :=
  { base_frame_no := 0, n_frames := 0, n_free_frames := 0, info_frame_no := 0,
    bitmap := zeroBitmap }

/-- The spec's end-to-end example pool: 8 frames, self-hosted bitmap, so
frame 0 is `Used` and 7 frames are free. -/
def samplePool : ContFramePool := (ContFramePool.construct 0 8 0 zeroBitmap).getD defaultPool

/-- An externally-managed-bitmap pool: 8 frames, all free. -/
def samplePoolExt : ContFramePool := (ContFramePool.construct 0 8 1 zeroBitmap).getD defaultPool

/-- A pool whose range starts at frame 10, with an external info frame. -/
def c8pool : ContFramePool := (ContFramePool.construct 10 20 5 zeroBitmap).getD defaultPool

theorem get_state_zeroBitmap (f : Nat) : get_state zeroBitmap f = FrameState.Free := by
  unfold get_state zeroBitmap
  simp

theorem initFrames_get_out (mem : Bitmap) : ∀ n f, n ≤ f →
    get_state (initFrames mem n) f = get_state mem f := by
  intro n
  induction n with
  | zero => intro f _; rfl
  | succ k ih =>
    intro f h
    simp only [initFrames]
    rw [get_set_other _ _ _ _ (by omega : f ≠ k)]
    exact ih f (by omega)

theorem samplePool_state (f : Nat) :
    get_state samplePool.bitmap f = if f = 0 then FrameState.Used else FrameState.Free := by
  have hbm : samplePool.bitmap = set_state (initFrames zeroBitmap 8) 0 FrameState.Used := rfl
  rw [hbm]
  by_cases hf : f = 0
  · subst hf
    rw [get_set_same, if_pos rfl]
  · rw [get_set_other _ _ _ _ hf, if_neg hf]
    by_cases h8 : f < 8
    · exact initFrames_get zeroBitmap 8 f h8
    · rw [initFrames_get_out zeroBitmap 8 f (by omega)]
      exact get_state_zeroBitmap f

theorem samplePoolExt_state (f : Nat) :
    get_state samplePoolExt.bitmap f = FrameState.Free := by
  have hbm : samplePoolExt.bitmap = initFrames zeroBitmap 8 := rfl
  rw [hbm]
  by_cases h8 : f < 8
  · exact initFrames_get zeroBitmap 8 f h8
  · rw [initFrames_get_out zeroBitmap 8 f (by omega)]
    exact get_state_zeroBitmap f

theorem c8pool_state (f : Nat) : get_state c8pool.bitmap f = FrameState.Free := by
  have hbm : c8pool.bitmap = initFrames zeroBitmap 20 := rfl
  rw [hbm]
  by_cases h20 : f < 20
  · exact initFrames_get zeroBitmap 20 f h20
  · rw [initFrames_get_out zeroBitmap 20 f (by omega)]
    exact get_state_zeroBitmap f

/-- C1: when `s` is the least start of a run of `n ≥ 1` consecutive `Free`
frames of the pool, `get_frames n` finds exactly that lowest run by its
ascending first-fit scan, marks its first frame `HeadOfSequence` and the
remaining `n - 1` frames `Used`, leaves every other frame unchanged,
decrements the pool's free count by `n`, and returns the absolute frame
number `s + base_frame_no`; all frames of the returned run were `Free`
beforehand, so the run overlaps no previously allocated, not-yet-released
run (whose frames are non-`Free`). -/
theorem c1_get_frames_first_fit (p : ContFramePool) (n s : Nat)
    (hn : 1 ≤ n) (hfree : 0 < p.n_free_frames) (hcnt : n ≤ p.n_free_frames)
    (hm : p.n_free_frames < M32) (hs : s + n ≤ p.n_frames)
    (hrun : freeRun p.bitmap s n)
    (hleast : ∀ t, t < p.n_frames → t + n ≤ p.n_frames → freeRun p.bitmap t n → s ≤ t) :
    p.get_frames n = some (s + p.base_frame_no, p.mark_inaccessible s n) ∧
    get_state (p.mark_inaccessible s n).bitmap s = FrameState.HoS ∧
    (∀ j, 1 ≤ j → j < n →
      get_state (p.mark_inaccessible s n).bitmap (s + j) = FrameState.Used) ∧
    (∀ g, g < s ∨ s + n ≤ g →
      get_state (p.mark_inaccessible s n).bitmap g = get_state p.bitmap g) ∧
    (p.mark_inaccessible s n).n_free_frames = p.n_free_frames - n ∧
    (p.mark_inaccessible s n).base_frame_no = p.base_frame_no ∧
    (p.mark_inaccessible s n).n_frames = p.n_frames ∧
    (∀ g, get_state p.bitmap g ≠ FrameState.Free → ¬ (s ≤ g ∧ g < s + n)) := by
  refine ⟨get_frames_found_spec p n s hn hfree hs hrun hleast, ?_, ?_, ?_, ?_,
    (mark_inaccessible_fields p s n).1, (mark_inaccessible_fields p s n).2.1, ?_⟩
  · rw [mark_inaccessible_get, if_pos rfl]
  · intro j hj1 hj2
    rw [mark_inaccessible_get, if_neg (by omega), if_pos (by omega)]
  · intro g hg
    rw [mark_inaccessible_get, if_neg (by omega), if_neg (by omega)]
  · rw [mark_inaccessible_count p s n hn, dec32Iter_eq n p.n_free_frames hcnt hm]
  · intro g hg hin
    have h2 := hrun (g - s) (by omega)
    rw [show s + (g - s) = g by omega] at h2
    exact hg h2

/-- C1 witness: in the example pool, the least 3-long free run starts at
frame 1, is returned as frame `1 + 0`, and the free count drops by 3. -/
theorem c1_witness :
    samplePool.get_frames 3 = some (1 + samplePool.base_frame_no, samplePool.mark_inaccessible 1 3) ∧
    (samplePool.mark_inaccessible 1 3).n_free_frames = samplePool.n_free_frames - 3 := by
  have h := c1_get_frames_first_fit samplePool 3 1 (by decide) (by decide) (by decide)
    (by decide) (by decide)
    (by intro j hj; rw [samplePool_state, if_neg (by omega)])
    (by
      intro t ht h2 hrunt
      by_contra hlt
      have ht0 : t = 0 := by omega
      subst ht0
      have h3 := hrunt 0 (by omega)
      rw [samplePool_state] at h3
      simp at h3)
  exact ⟨h.1, h.2.2.2.2.1⟩

/-- C7: with a positive free count but no run of `n` consecutive `Free`
frames, `get_frames n` returns the sentinel `0` and the pool unchanged
(same bitmap, same free count). -/
theorem c7_get_frames_no_run (p : ContFramePool) (n : Nat)
    (hn : 1 ≤ n) (hfree : 0 < p.n_free_frames)
    (hno : ∀ t, t < p.n_frames → t + n ≤ p.n_frames → ¬ freeRun p.bitmap t n) :
    p.get_frames n = some (0, p) :=
  get_frames_none_spec p n hn hfree hno

/-- C7 witness: the example pool has 7 free frames but no 8-long free run. -/
theorem c7_witness : samplePool.get_frames 8 = some (0, samplePool) :=
  c7_get_frames_no_run samplePool 8 (by decide) (by decide)
    (by
      intro t ht h2 hrunt
      have hnf : samplePool.n_frames = 8 := by decide
      rw [hnf] at h2
      have ht0 : t = 0 := by omega
      subst ht0
      have h3 := hrunt 0 (by omega)
      rw [samplePool_state] at h3
      simp at h3)

/-- C8 counterexample: for the pool with `base_frame_no = 10`,
`mark_inaccessible 12 1` leaves bitmap offset `12 - base_frame_no = 2`
(the claim's predicted target, physical frame 12) `Free`, and instead marks
bitmap offset 12 `HeadOfSequence` — the source uses its first argument
directly as the bitmap index without subtracting `base_frame_no`. -/
theorem c8_counterexample :
    c8pool.base_frame_no = 10 ∧
    get_state (c8pool.mark_inaccessible 12 1).bitmap (12 - c8pool.base_frame_no) =
      FrameState.Free ∧
    get_state (c8pool.mark_inaccessible 12 1).bitmap 12 = FrameState.HoS := by
  refine ⟨by decide, ?_, ?_⟩
  · rw [mark_inaccessible_get, if_neg (by decide), if_neg (by decide)]
    exact c8pool_state _
  · rw [mark_inaccessible_get, if_pos rfl]

/-- C8 (amended): for every pool and `n ≥ 1`, `mark_inaccessible b n` marks
the pool-relative bitmap offsets `b .. b + n - 1` — the first argument is
used directly as the bitmap index, not reduced by `base_frame_no` — the same
way `get_frames` marks a found run: offset `b` becomes `HeadOfSequence`, the
remaining `n - 1` offsets become `Used`, other offsets are untouched, and
the free count drops by `n`. -/
theorem c8_amended_mark_inaccessible (p : ContFramePool) (b n : Nat)
    (hn : 1 ≤ n) (hcnt : n ≤ p.n_free_frames) (hm : p.n_free_frames < M32) :
    get_state (p.mark_inaccessible b n).bitmap b = FrameState.HoS ∧
    (∀ j, 1 ≤ j → j < n →
      get_state (p.mark_inaccessible b n).bitmap (b + j) = FrameState.Used) ∧
    (∀ g, g < b ∨ b + n ≤ g →
      get_state (p.mark_inaccessible b n).bitmap g = get_state p.bitmap g) ∧
    (p.mark_inaccessible b n).n_free_frames = p.n_free_frames - n ∧
    (p.mark_inaccessible b n).base_frame_no = p.base_frame_no ∧
    (p.mark_inaccessible b n).n_frames = p.n_frames := by
  refine ⟨?_, ?_, ?_, ?_, (mark_inaccessible_fields p b n).1,
    (mark_inaccessible_fields p b n).2.1⟩
  · rw [mark_inaccessible_get, if_pos rfl]
  · intro j hj1 hj2
    rw [mark_inaccessible_get, if_neg (by omega), if_pos (by omega)]
  · intro g hg
    rw [mark_inaccessible_get, if_neg (by omega), if_neg (by omega)]
  · rw [mark_inaccessible_count p b n hn, dec32Iter_eq n p.n_free_frames hcnt hm]

/-- C8 witness: marking one frame at offset 12 drops the free count by 1. -/
theorem c8_witness :
    (c8pool.mark_inaccessible 12 1).n_free_frames = c8pool.n_free_frames - 1 := by
  have h := c8_amended_mark_inaccessible c8pool 12 1 (by decide) (by decide) (by decide)
  exact h.2.2.2.1

/-- C6: `release_frames f` is rejected — every registered pool keeps its
bitmap and free count — when `f` lies in no registered pool's
`[base_frame_no, base_frame_no + n_frames)` range, or when, within each pool
whose range holds `f`, the frame's state is `Used` (non-head) or already
`Free` rather than `HeadOfSequence`. -/
theorem c6_release_frames_rejected (pools : List ContFramePool) (f fuel : Nat)
    (h : ∀ p ∈ pools, p.base_frame_no ≤ f → f < p.base_frame_no + p.n_frames →
      get_state p.bitmap (f - p.base_frame_no) = FrameState.Used ∨
      get_state p.bitmap (f - p.base_frame_no) = FrameState.Free) :
    ContFramePool.release_frames pools f fuel = pools := by
  apply release_frames_unchanged
  intro p hp h1 h2
  rcases h p hp h1 h2 with h3 | h3 <;> simp [h3]

/-- C6 witness: releasing frame 0 of the example pool (a `Used` non-head
bitmap frame) is rejected and the registry is unchanged. -/
theorem c6_witness : ContFramePool.release_frames [samplePool] 0 5 = [samplePool] :=
  c6_release_frames_rejected [samplePool] 0 5
    (by
      intro p hp h1 h2
      have hps : p = samplePool := by simpa using hp
      subst hps
      left
      have h3 := samplePool_state (0 - samplePool.base_frame_no)
      rw [h3]
      rfl)

/-- C3 (evaluation at the failing input): the constructor's capacity
`assert` accepts `n_frames = 4 * FRAME_SIZE + 1` (it only rejects above
`FRAME_SIZE * 8`), although that exceeds the `FRAME_SIZE * 8 / 2` frames
describable by one frame's worth of 2-bit entries — the code's own
`needed_info_frames` reports 2 info frames for it — and the assert does
reject `8 * FRAME_SIZE + 1`. -/
theorem c3_capacity_check_evaluation :
    (ContFramePool.construct 0 (4 * FRAME_SIZE + 1) 1 zeroBitmap).isSome = true ∧
    4 * FRAME_SIZE + 1 > FRAME_SIZE * 8 / 2 ∧
    needed_info_frames (4 * FRAME_SIZE + 1) = 2 ∧
    ContFramePool.construct 0 (8 * FRAME_SIZE + 1) 1 zeroBitmap = none := by
  refine ⟨?_, by decide, by decide, ?_⟩
  · unfold ContFramePool.construct
    rw [if_pos (by decide), if_neg (by decide)]
    rfl
  · unfold ContFramePool.construct
    rw [if_neg (by decide)]

/-- C2: after `get_frames n` succeeds on the least free-run start `s`
(returning head frame `s + base_frame_no` and marking the run), the static
`release_frames` on that head frame finds the owning pool in the registry,
accepts (the head is `HoS`), restores the pool's free count to its
pre-allocation value, and returns every frame of the run — indeed the whole
observable bitmap — to its pre-allocation state. -/
theorem c2_release_restores (p : ContFramePool) (n s fuel : Nat)
    (hn : 1 ≤ n) (hfree : 0 < p.n_free_frames) (hcnt : n ≤ p.n_free_frames)
    (hm : p.n_free_frames < M32) (hs : s + n ≤ p.n_frames)
    (hrun : freeRun p.bitmap s n)
    (hleast : ∀ t, t < p.n_frames → t + n ≤ p.n_frames → freeRun p.bitmap t n → s ≤ t)
    (hstop : get_state p.bitmap (s + n) ≠ FrameState.Used)
    (hfuel : n - 1 ≤ fuel) :
    p.get_frames n = some (s + p.base_frame_no, p.mark_inaccessible s n) ∧
    ContFramePool.release_frames [p.mark_inaccessible s n] (s + p.base_frame_no) fuel =
      [(p.mark_inaccessible s n).release_frames_pool (s + p.base_frame_no) fuel] ∧
    ((p.mark_inaccessible s n).release_frames_pool
      (s + p.base_frame_no) fuel).n_free_frames = p.n_free_frames ∧
    (∀ j, j < n → get_state ((p.mark_inaccessible s n).release_frames_pool
      (s + p.base_frame_no) fuel).bitmap (s + j) = FrameState.Free) ∧
    (∀ g, get_state ((p.mark_inaccessible s n).release_frames_pool
      (s + p.base_frame_no) fuel).bitmap g = get_state p.bitmap g) := by
  have hfields := mark_inaccessible_fields p s n
  have hrange : (p.mark_inaccessible s n).base_frame_no ≤ s + p.base_frame_no ∧
      s + p.base_frame_no <
        (p.mark_inaccessible s n).base_frame_no + (p.mark_inaccessible s n).n_frames := by
    rw [hfields.1, hfields.2.1]
    omega
  have hhos : get_state (p.mark_inaccessible s n).bitmap s = FrameState.HoS := by
    rw [mark_inaccessible_get, if_pos rfl]
  have hrun2 : ∀ t, t < n - 1 →
      get_state (p.mark_inaccessible s n).bitmap (s + 1 + t) = FrameState.Used := by
    intro t ht
    rw [mark_inaccessible_get, if_neg (by omega), if_pos (by omega)]
  have hstop2 : get_state (p.mark_inaccessible s n).bitmap (s + 1 + (n - 1)) ≠
      FrameState.Used := by
    rw [show s + 1 + (n - 1) = s + n by omega, mark_inaccessible_get,
      if_neg (by omega), if_neg (by omega)]
    exact hstop
  have hacc := release_frames_pool_accepted (p.mark_inaccessible s n) s (n - 1) fuel
    hhos hrun2 hstop2 hfuel
  have hbase : s + p.base_frame_no = (p.mark_inaccessible s n).base_frame_no + s := by
    rw [hfields.1]
    omega
  have hqc : (p.mark_inaccessible s n).n_free_frames = p.n_free_frames - n := by
    rw [mark_inaccessible_count p s n hn, dec32Iter_eq n p.n_free_frames hcnt hm]
  have hcounter : ((p.mark_inaccessible s n).release_frames_pool
      (s + p.base_frame_no) fuel).n_free_frames = p.n_free_frames := by
    rw [hbase, hacc.1, hqc]
    have h1 : inc32 (p.n_free_frames - n) = p.n_free_frames - n + 1 := by
      unfold inc32 M32 at *
      omega
    rw [h1, inc32Iter_eq (n - 1) (p.n_free_frames - n + 1) (by omega)]
    omega
  have hbm : ∀ g, get_state ((p.mark_inaccessible s n).release_frames_pool
      (s + p.base_frame_no) fuel).bitmap g = get_state p.bitmap g := by
    intro g
    rw [hbase, hacc.2.1 g]
    by_cases hg : s ≤ g ∧ g < s + 1 + (n - 1)
    · rw [if_pos hg]
      have h2 := hrun (g - s) (by omega)
      rw [show s + (g - s) = g by omega] at h2
      exact h2.symm
    · rw [if_neg hg, mark_inaccessible_get, if_neg (by omega), if_neg (by omega)]
  refine ⟨get_frames_found_spec p n s hn hfree hs hrun hleast,
    release_frames_single (p.mark_inaccessible s n) (s + p.base_frame_no) fuel hrange,
    hcounter, ?_, hbm⟩
  intro j hj
  rw [hbm (s + j)]
  exact hrun j hj

/-- C2 witness: releasing the 3-frame run allocated from the example pool
restores the free count to 7. -/
theorem c2_witness :
    ((samplePool.mark_inaccessible 1 3).release_frames_pool
      (1 + samplePool.base_frame_no) 2).n_free_frames = samplePool.n_free_frames := by
  have h := c2_release_restores samplePool 3 1 2 (by decide) (by decide) (by decide)
    (by decide) (by decide)
    (by intro j hj; rw [samplePool_state, if_neg (by omega)])
    (by
      intro t ht h2 hrunt
      by_contra hlt
      have ht0 : t = 0 := by omega
      subst ht0
      have h3 := hrunt 0 (by omega)
      rw [samplePool_state] at h3
      simp at h3)
    (by rw [samplePool_state]; simp)
    (by omega)
  exact h.2.2.1

theorem get_frames_some_inv (p : ContFramePool) (n : Nat) (res : Nat × ContFramePool)
    (h : p.get_frames n = some res) :
    0 < p.n_free_frames ∧
    (res = (0, p) ∨ ∃ j, scanFrom p.bitmap p.n_frames n 0 0 = some j ∧
      res = ((j + 1 - n) + p.base_frame_no, p.mark_inaccessible (j + 1 - n) n)) := by
  unfold ContFramePool.get_frames at h
  by_cases hf : 0 < p.n_free_frames
  · rw [if_pos hf] at h
    refine ⟨hf, ?_⟩
    cases hscan : scanFrom p.bitmap p.n_frames n 0 0 with
    | none =>
      rw [hscan] at h
      left
      injection h with h2
      exact h2.symm
    | some j =>
      rw [hscan] at h
      right
      refine ⟨j, rfl, ?_⟩
      injection h with h2
      exact h2.symm
  · rw [if_neg hf] at h
    cases h

/-- C10: `n_free_frames` always equals the number of `Free` frames of the
pool's bitmap: (a) established by the constructor for both the self-hosted
and the external-info-frame layout; (b) preserved by every returning
`get_frames` (found run or sentinel); (c) preserved by `release_frames`
acting on the owning pool (accepted or rejected); (d) preserved by
`mark_inaccessible` on an in-range run of currently `Free` frames. -/
theorem c10_free_count_invariant :
    (∀ base n info : Nat, ∀ mem : Bitmap, ∀ p : ContFramePool, 1 ≤ n → n < M32 →
      ContFramePool.construct base n info mem = some p →
      p.n_free_frames = countFree p.bitmap p.n_frames) ∧
    (∀ p : ContFramePool, ∀ n : Nat, ∀ res : Nat × ContFramePool,
      p.n_free_frames = countFree p.bitmap p.n_frames → p.n_frames < M32 → 1 ≤ n →
      p.get_frames n = some res →
      res.2.n_free_frames = countFree res.2.bitmap res.2.n_frames) ∧
    (∀ p : ContFramePool, ∀ f fuel : Nat,
      p.n_free_frames = countFree p.bitmap p.n_frames → p.n_frames < M32 →
      p.n_frames ≤ fuel → get_state p.bitmap p.n_frames ≠ FrameState.Used →
      p.base_frame_no ≤ f → f < p.base_frame_no + p.n_frames →
      (p.release_frames_pool f fuel).n_free_frames =
        countFree (p.release_frames_pool f fuel).bitmap
          (p.release_frames_pool f fuel).n_frames) ∧
    (∀ p : ContFramePool, ∀ b n : Nat,
      p.n_free_frames = countFree p.bitmap p.n_frames → p.n_frames < M32 → 1 ≤ n →
      b + n ≤ p.n_frames → (∀ j, j < n → get_state p.bitmap (b + j) = FrameState.Free) →
      (p.mark_inaccessible b n).n_free_frames =
        countFree (p.mark_inaccessible b n).bitmap (p.mark_inaccessible b n).n_frames) := by
  refine ⟨?_, ?_, ?_, ?_⟩
  · -- (a) constructor
    intro base n info mem p hn hnM hcon
    unfold ContFramePool.construct at hcon
    by_cases hcap : n ≤ FRAME_SIZE * 8
    · rw [if_pos hcap] at hcon
      by_cases hinfo : info = 0
      · rw [if_pos hinfo] at hcon
        have hp := Option.some.inj hcon
        subst hp
        dsimp only
        have hseg := countFree_segment (initFrames mem n)
          (set_state (initFrames mem n) 0 FrameState.Used) 0 n 1 (by omega)
          (by
            intro g hg hgo
            exact get_set_other _ _ _ _ (by omega))
          (by
            intro g hg1 hg2
            have hg0 : g = 0 := by omega
            subst hg0
            rw [get_set_same]
            exact ⟨by simp, initFrames_get mem n 0 (by omega)⟩)
        have hall := countFree_all_free (initFrames mem n) n
          (by intro f hf; exact initFrames_get mem n f hf)
        rw [dec32_eq_sub n hn hnM]
        omega
      · rw [if_neg hinfo] at hcon
        have hp := Option.some.inj hcon
        subst hp
        dsimp only
        exact (countFree_all_free (initFrames mem n) n
          (by intro f hf; exact initFrames_get mem n f hf)).symm
    · rw [if_neg hcap] at hcon
      cases hcon
  · -- (b) get_frames
    intro p n res hinv hNM hn hsome
    obtain ⟨hfree, hcases⟩ := get_frames_some_inv p n res hsome
    rcases hcases with hres | ⟨j, hscan, hres⟩
    · subst hres
      exact hinv
    · subst hres
      obtain ⟨hjN, hjn, hjrun, hjmin⟩ := scanFrom_some_spec p.bitmap p.n_frames n j hn hscan
      dsimp only
      have hfields := mark_inaccessible_fields p (j + 1 - n) n
      have hmark := countFree_mark p (j + 1 - n) n p.n_frames hn (by omega) hjrun
      have hle := countFree_le p.bitmap p.n_frames
      rw [hfields.2.1, mark_inaccessible_count p (j + 1 - n) n hn,
        dec32Iter_eq n p.n_free_frames (by omega) (by omega)]
      omega
  · -- (c) release_frames on the owning pool
    intro p f fuel hinv hNM hfuel hsent hfl hfr
    obtain ⟨s, rfl⟩ : ∃ s, f = p.base_frame_no + s := ⟨f - p.base_frame_no, by omega⟩
    have hsN : s < p.n_frames := by omega
    have hsub : p.base_frame_no + s - p.base_frame_no = s := by omega
    by_cases hhos : get_state p.bitmap s = FrameState.HoS
    · have hex : ∃ t, get_state p.bitmap (s + 1 + t) ≠ FrameState.Used :=
        ⟨p.n_frames - s - 1,
          by rw [show s + 1 + (p.n_frames - s - 1) = p.n_frames by omega]; exact hsent⟩
      have hkP := Nat.find_spec hex
      have hkmin : ∀ t, t < Nat.find hex →
          get_state p.bitmap (s + 1 + t) = FrameState.Used := by
        intro t ht
        have h2 := Nat.find_min hex ht
        by_contra h3
        exact h2 h3
      have hkle : Nat.find hex ≤ p.n_frames - s - 1 := Nat.find_le
        (by rw [show s + 1 + (p.n_frames - s - 1) = p.n_frames by omega]; exact hsent)
      have hacc := release_frames_pool_accepted p s (Nat.find hex) fuel hhos hkmin hkP
        (by omega)
      have hseg := countFree_segment
        (p.release_frames_pool (p.base_frame_no + s) fuel).bitmap p.bitmap s
        p.n_frames (Nat.find hex + 1) (by omega)
        (by
          intro g hg hgo
          rw [hacc.2.1 g, if_neg (by omega)])
        (by
          intro g hg1 hg2
          refine ⟨?_, ?_⟩
          · by_cases hgs : g = s
            · subst hgs
              rw [hhos]
              simp
            · have h4 := hkmin (g - s - 1) (by omega)
              rw [show s + 1 + (g - s - 1) = g by omega] at h4
              rw [h4]
              simp
          · rw [hacc.2.1 g, if_pos (by omega)])
      have hle2 := countFree_le
        (p.release_frames_pool (p.base_frame_no + s) fuel).bitmap p.n_frames
      have hcnt1 : inc32 p.n_free_frames = p.n_free_frames + 1 := by
        unfold inc32 M32 at *
        omega
      rw [hacc.2.2.2, hacc.1, hcnt1,
        inc32Iter_eq (Nat.find hex) (p.n_free_frames + 1) (by omega)]
      omega
    · rw [release_frames_pool_rejected p (p.base_frame_no + s) fuel
        (by rw [hsub]; exact hhos)]
      exact hinv
  · -- (d) mark_inaccessible on a free range
    intro p b n hinv hNM hn hbn hfree2
    have hfields := mark_inaccessible_fields p b n
    have hmark := countFree_mark p b n p.n_frames hn hbn hfree2
    have hle := countFree_le p.bitmap p.n_frames
    rw [hfields.2.1, mark_inaccessible_count p b n hn,
      dec32Iter_eq n p.n_free_frames (by omega) (by omega)]
    omega

/-- C10 witness: the externally-hosted 8-frame pool starts with its counter
equal to its number of `Free` frames. -/
theorem c10_witness :
    samplePoolExt.n_free_frames = countFree samplePoolExt.bitmap samplePoolExt.n_frames :=
  c10_free_count_invariant.1 0 8 1 zeroBitmap samplePoolExt (by decide) (by decide) rfl

/-- All-zero prior content for the self-hosted region table. -/
def zeroRegions : Nat → VMRegion := fun _ => { base_address := 0, size := 0 }

/-- The spec's VM example: a pool spanning 3 pages from address 4096. -/
def sampleVM : VMPool := VMPool.construct 4096 12288 zeroRegions

/-- The spec's VM example after two one-page `allocate` calls. -/
def sampleVM2 : VMPool :=
  { base_address := 4096, size := 12288,
    allocated_region := fun j =>
      if j = 0 then { base_address := 4096, size := 4096 }
      else if j = 1 then { base_address := 8192, size := 4096 }
      else { base_address := 0, size := 0 },
    region_iterator := 2 }

/-- C9: `is_legitimate a` is true exactly on the inclusive range
`[base_address, base_address + size]`; in particular it is true at both
`base_address` and `base_address + size`, and false at `base_address - 1`
and at `base_address + size + 1`, for every pool whose range neither starts
at address 0 nor wraps the 32-bit address space. -/
theorem c9_is_legitimate (p : VMPool) (a : Nat)
    (hb : 1 ≤ p.base_address) (hof : p.base_address + p.size + 1 < M32) :
    (p.is_legitimate a = true ↔ p.base_address ≤ a ∧ a ≤ p.base_address + p.size) ∧
    p.is_legitimate p.base_address = true ∧
    p.is_legitimate (p.base_address + p.size) = true ∧
    p.is_legitimate (p.base_address - 1) = false ∧
    p.is_legitimate (p.base_address + p.size + 1) = false := by
  have hmod : (p.base_address + p.size) % M32 = p.base_address + p.size :=
    Nat.mod_eq_of_lt (by omega)
  refine ⟨?_, ?_, ?_, ?_, ?_⟩ <;> unfold VMPool.is_legitimate <;> rw [hmod]
  · by_cases hA : p.base_address ≤ a ∧ a ≤ p.base_address + p.size
    · rw [if_pos hA]
      simp [hA]
    · rw [if_neg hA]
      simp [hA]
  · rw [if_pos ⟨by omega, by omega⟩]
  · rw [if_pos ⟨by omega, by omega⟩]
  · rw [if_neg (by omega)]
  · rw [if_neg (by omega)]

/-- C9 witness: the example VM pool accepts its base address and rejects the
address just below it. -/
theorem c9_witness :
    sampleVM.is_legitimate sampleVM.base_address = true ∧
    sampleVM.is_legitimate (sampleVM.base_address - 1) = false := by
  have h := c9_is_legitimate sampleVM 0 (by decide) (by decide)
  exact ⟨h.2.1, h.2.2.2.1⟩

/-- The pool produced by a successful `allocate`: the new descriptor, placed
at slot `region_iterator`, records base `lastEnd p` and the page-rounded
size, and the counter advances. -/
def allocResult (p : VMPool) (s : Nat) : VMPool :=
  { base_address := p.base_address, size := p.size,
    allocated_region := fun j =>
      if j = p.region_iterator then
        { base_address := lastEnd p,
          size := (s / PAGE_SIZE + if s % PAGE_SIZE > 0 then 1 else 0) * PAGE_SIZE }
      else p.allocated_region j,
    region_iterator := p.region_iterator + 1 }

theorem allocate_eq_allocResult (p : VMPool) (s : Nat)
    (hp : regionsChained p) (hs : 0 < s)
    (hcap : p.region_iterator < MAX_VM_REGIONS)
    (hfit : lastEnd p + s + PAGE_SIZE < M32) :
    p.allocate s = some (lastEnd p, allocResult p s) := by
  have hru := roundup_spec s
  have hend := hp.2.2.2.2
  unfold VMPool.allocate allocResult
  rw [if_neg (by omega), if_neg (by omega)]
  have hnb : (if p.region_iterator = 0 then p.base_address
      else ((p.allocated_region (p.region_iterator - 1)).base_address +
        (p.allocated_region (p.region_iterator - 1)).size) % M32) = lastEnd p := by
    unfold lastEnd at *
    by_cases h0 : p.region_iterator = 0
    · rw [if_pos h0, if_pos h0]
    · rw [if_neg h0] at hend
      rw [if_neg h0, if_neg h0]
      exact Nat.mod_eq_of_lt hend
  have hfm : (s / PAGE_SIZE + if s % PAGE_SIZE > 0 then 1 else 0) * PAGE_SIZE % M32 =
      (s / PAGE_SIZE + if s % PAGE_SIZE > 0 then 1 else 0) * PAGE_SIZE :=
    Nat.mod_eq_of_lt (by omega)
  dsimp only
  rw [hnb, hfm]

/-- C4: `allocate 0` is a fatal rejection; for a packed (no-release-yet)
pool with spare table capacity, `allocate s` rounds `s` up to whole pages,
records the new region at `base_address` for the first region and at
`previous.base + previous.size` otherwise (both equal `lastEnd`), increments
the region count, and returns that page-aligned base; the updated table is
again packed, so across successive calls the returned addresses are
page-aligned, strictly increasing, and the recorded regions pairwise
non-overlapping. -/
theorem c4_allocate_spec (p : VMPool) (s : Nat)
    (hp : regionsChained p) (hs : 0 < s)
    (hcap : p.region_iterator < MAX_VM_REGIONS)
    (hfit : lastEnd p + s + PAGE_SIZE < M32) :
    p.allocate 0 = none ∧
    PAGE_SIZE ∣ lastEnd p ∧
    p.allocate s = some (lastEnd p, allocResult p s) ∧
    (allocResult p s).region_iterator = p.region_iterator + 1 ∧
    ((allocResult p s).allocated_region p.region_iterator).base_address = lastEnd p ∧
    s ≤ ((allocResult p s).allocated_region p.region_iterator).size ∧
    ((allocResult p s).allocated_region p.region_iterator).size < s + PAGE_SIZE ∧
    PAGE_SIZE ∣ ((allocResult p s).allocated_region p.region_iterator).size ∧
    (∀ j, j < p.region_iterator →
      (allocResult p s).allocated_region j = p.allocated_region j) ∧
    regionsChained (allocResult p s) ∧
    lastEnd (allocResult p s) =
      lastEnd p + ((allocResult p s).allocated_region p.region_iterator).size ∧
    (∀ i j, i < j → j < (allocResult p s).region_iterator →
      ((allocResult p s).allocated_region i).base_address +
        ((allocResult p s).allocated_region i).size ≤
        ((allocResult p s).allocated_region j).base_address ∧
      ((allocResult p s).allocated_region i).base_address <
        ((allocResult p s).allocated_region j).base_address) := by
  have hru := roundup_spec s
  have hend := hp.2.2.2.2
  have hat : ∀ j, (allocResult p s).allocated_region j =
      if j = p.region_iterator then
        { base_address := lastEnd p,
          size := (s / PAGE_SIZE + if s % PAGE_SIZE > 0 then 1 else 0) * PAGE_SIZE }
      else p.allocated_region j := fun j => rfl
  have hiter : (allocResult p s).region_iterator = p.region_iterator + 1 := rfl
  have hatE : (allocResult p s).allocated_region p.region_iterator =
      { base_address := lastEnd p,
        size := (s / PAGE_SIZE + if s % PAGE_SIZE > 0 then 1 else 0) * PAGE_SIZE } := by
    rw [hat, if_pos rfl]
  have hlastR : lastEnd (allocResult p s) =
      lastEnd p + (s / PAGE_SIZE + if s % PAGE_SIZE > 0 then 1 else 0) * PAGE_SIZE := by
    have h1 : lastEnd (allocResult p s) =
        ((allocResult p s).allocated_region p.region_iterator).base_address +
        ((allocResult p s).allocated_region p.region_iterator).size := by
      unfold lastEnd
      rw [hiter, if_neg (by omega), show p.region_iterator + 1 - 1 = p.region_iterator
        from by omega]
    rw [h1, hatE]
  have hch : regionsChained (allocResult p s) := by
    refine ⟨hp.1, ?_, ?_, ?_, ?_⟩
    · intro i hi
      rw [hat]
      by_cases hie : i = p.region_iterator
      · rw [if_pos hie]
        refine ⟨?_, hru.2.2⟩
        show 0 < (s / PAGE_SIZE + if s % PAGE_SIZE > 0 then 1 else 0) * PAGE_SIZE
        omega
      · rw [if_neg hie]
        exact hp.2.1 i (by rw [hiter] at hi; omega)
    · intro h0
      rw [hat]
      by_cases h00 : 0 = p.region_iterator
      · rw [if_pos h00]
        show lastEnd p = p.base_address
        unfold lastEnd
        rw [if_pos h00.symm]
      · rw [if_neg h00]
        show (p.allocated_region 0).base_address = p.base_address
        exact hp.2.2.1 (by omega)
    · intro i hi
      rw [hiter] at hi
      rw [hat (i + 1), hat i]
      by_cases hi2 : i + 1 = p.region_iterator
      · rw [if_pos hi2, if_neg (by omega : ¬ i = p.region_iterator)]
        show lastEnd p =
          (p.allocated_region i).base_address + (p.allocated_region i).size
        unfold lastEnd
        rw [if_neg (by omega : ¬ p.region_iterator = 0),
          show p.region_iterator - 1 = i from by omega]
      · rw [if_neg hi2, if_neg (by omega)]
        exact hp.2.2.2.1 i (by omega)
    · rw [hlastR]
      omega
  refine ⟨by unfold VMPool.allocate; rw [if_pos rfl],
    chained_lastEnd_aligned p hp,
    allocate_eq_allocResult p s hp hs hcap hfit,
    hiter,
    by rw [hatE],
    by rw [hatE]; exact hru.1,
    by rw [hatE]; exact hru.2.1,
    by rw [hatE]; exact hru.2.2,
    by intro j hj; rw [hat, if_neg (by omega)],
    hch,
    by rw [hlastR, hatE],
    ?_⟩
  intro i j hij hj
  have h1 := chained_mono (allocResult p s) hch j hj i hij
  rw [hiter] at hj
  have h2 := (hch.2.1 i (by rw [hiter]; omega)).1
  exact ⟨h1, by omega⟩

/-- C4 witness: the first allocation from the empty 3-page pool returns its
base address 4096. -/
theorem c4_witness :
    sampleVM.allocate 4096 = some (lastEnd sampleVM, allocResult sampleVM 4096) ∧
    lastEnd sampleVM = 4096 ∧
    sampleVM.allocate 0 = none := by
  have h := c4_allocate_spec sampleVM 4096 (by decide) (by decide) (by decide) (by decide)
  exact ⟨h.2.2.1, by decide, h.1⟩

/-- C5: for `start_address` equal to the recorded base of a live descriptor
(slot `k`, the first such slot), `release` hands the page table exactly one
`free_page` call per page covered by that descriptor — the addresses
`start, start + PAGE_SIZE, …` — requests a page-table reload, removes the
descriptor by shifting every later descriptor one slot earlier without
changing any recorded region address, and decrements the region count. -/
theorem c5_release_spec (p : VMPool) (start k : Nat)
    (hk : k < p.region_iterator)
    (hbase : (p.allocated_region k).base_address = start)
    (hfirst : ∀ j, j < k → (p.allocated_region j).base_address ≠ start)
    (hiter : p.region_iterator < M32)
    (hnm : (p.allocated_region k).base_address + (p.allocated_region k).size < M32) :
    (p.release start).1 = (List.range ((p.allocated_region k).size / PAGE_SIZE)).map
      (fun i => start + i * PAGE_SIZE) ∧
    (p.release start).1.length = (p.allocated_region k).size / PAGE_SIZE ∧
    (p.release start).2.1 = true ∧
    (p.release start).2.2.region_iterator = p.region_iterator - 1 ∧
    (∀ j, j < k → (p.release start).2.2.allocated_region j = p.allocated_region j) ∧
    (∀ j, k ≤ j → j < p.region_iterator →
      (p.release start).2.2.allocated_region j = p.allocated_region (j + 1)) ∧
    (p.release start).2.2.base_address = p.base_address ∧
    (p.release start).2.2.size = p.size := by
  have hfind : findRegionIdxAux p start 0 = k :=
    findRegionIdxAux_spec k p start 0 k hk (by omega) (by omega) hbase
      (by intro j hj1 hj2; exact hfirst j hj2)
  have hrel : p.release start =
      ((List.range ((p.allocated_region k).size / PAGE_SIZE)).map
        (fun i => ((p.allocated_region k).base_address + i * PAGE_SIZE) % M32),
       true,
       { base_address := p.base_address, size := p.size,
         allocated_region := fun j =>
           if k ≤ j ∧ j < p.region_iterator then p.allocated_region (j + 1)
           else p.allocated_region j,
         region_iterator := dec32 p.region_iterator }) := by
    unfold VMPool.release
    rw [hfind]
  have hmap : (List.range ((p.allocated_region k).size / PAGE_SIZE)).map
      (fun i => ((p.allocated_region k).base_address + i * PAGE_SIZE) % M32) =
      (List.range ((p.allocated_region k).size / PAGE_SIZE)).map
      (fun i => start + i * PAGE_SIZE) := by
    apply List.map_congr_left
    intro i hi
    rw [List.mem_range] at hi
    rw [hbase]
    apply Nat.mod_eq_of_lt
    have h2 : (i + 1) * PAGE_SIZE ≤ (p.allocated_region k).size :=
      le_trans (Nat.mul_le_mul_right PAGE_SIZE hi)
        (Nat.div_mul_le_self (p.allocated_region k).size PAGE_SIZE)
    rw [hbase] at hnm
    unfold PAGE_SIZE at *
    omega
  refine ⟨?_, ?_, ?_, ?_, ?_, ?_, ?_, ?_⟩
  · rw [hrel]
    exact hmap
  · rw [hrel]
    dsimp only
    rw [List.length_map, List.length_range]
  · rw [hrel]
  · rw [hrel]
    dsimp only
    exact dec32_eq_sub p.region_iterator (by omega) hiter
  · intro j hj
    rw [hrel]
    dsimp only
    rw [if_neg (by omega)]
  · intro j hj1 hj2
    rw [hrel]
    dsimp only
    rw [if_pos ⟨hj1, hj2⟩]
  · rw [hrel]
  · rw [hrel]

/-- C5 witness: in the two-region example, releasing the first region frees
exactly one page (address 4096), compacts the surviving descriptor for
address 8192 into slot 0, and drops the region count to 1. -/
theorem c5_witness :
    (sampleVM2.release 4096).1 = [4096] ∧
    (sampleVM2.release 4096).2.2.region_iterator = 1 ∧
    (sampleVM2.release 4096).2.2.allocated_region 0 =
      { base_address := 8192, size := 4096 } := by
  have h := c5_release_spec sampleVM2 4096 0 (by decide) (by decide)
    (by intro j hj; omega) (by decide) (by decide)
  refine ⟨?_, ?_, ?_⟩
  · rw [h.1]
    decide
  · rw [h.2.2.2.1]
    decide
  · rw [h.2.2.2.2.2.1 0 (by omega) (by decide)]
    decide
